import Mathlib

/-!
Shallow embedding of `itkconfig` (src/config.go): a line-oriented key=value
configuration parser that populates a destination struct via reflection.

Go strings are modelled as `List Char`, the reflection view of the destination
struct as a list of named, typed fields, and `LoadConfig` as a pure function
from the destination argument and the file-open result (the list of raw lines,
or an open error) to an outcome paired with the final destination. A reflect
`Value.Set` on an unexported field panics in Go; the embedding makes that a
distinct `panicked` outcome.
-/

set_option maxRecDepth 20000

namespace ItkConfig

/-- Characters accepted by Go `unicode.IsSpace` (the Unicode White_Space set). -/
def isSpaceGo (c : Char) : Bool :=
  let n := c.toNat
  n == 9 || n == 10 || n == 11 || n == 12 || n == 13 || n == 32 ||
  n == 0x85 || n == 0xA0 || n == 0x1680 ||
  (decide (0x2000 ≤ n) && decide (n ≤ 0x200A)) ||
  n == 0x2028 || n == 0x2029 || n == 0x202F || n == 0x205F || n == 0x3000

/-- Go `strings.TrimLeftFunc(s, unicode.IsSpace)`. -/
def trimLeftGo (s : List Char) : List Char := s.dropWhile isSpaceGo

/-- Go `strings.TrimRightFunc(s, unicode.IsSpace)`. -/
def trimRightGo (s : List Char) : List Char := (s.reverse.dropWhile isSpaceGo).reverse

/-- Go `strings.TrimSpace(s)`. -/
def trimSpaceGo (s : List Char) : List Char := trimRightGo (trimLeftGo s)

/-- Go `commentIndex := strings.Index(part, "#")` followed by
`part = part[:commentIndex]` when found: returns the prefix of the part that
precedes the first `#`, together with whether a `#` occurred at all. -/
def dropComment : List Char → List Char × Bool
  | [] => ([], false)
  | c :: cs =>
    if c = '#' then ([], true)
    else
      let r := dropComment cs
      (c :: r.1, r.2)

/-- Go `strings.SplitN(part, "=", 2)`: `none` when the part has no `=`,
otherwise the text before the first `=` and everything after it. -/
def splitEq : List Char → Option (List Char × List Char)
  | [] => none
  | c :: cs =>
    if c = '=' then some ([], cs)
    else
      match splitEq cs with
      | none => none
      | some r => some (c :: r.1, r.2)

/-- Go `strings.Split(line, "\"")`: the maximal runs of non-quote characters,
in order; the result always has one more part than the line has quotes. -/
def splitQuotes : List Char → List (List Char)
  | [] => [[]]
  | c :: cs =>
    if c = '"' then [] :: splitQuotes cs
    else
      match splitQuotes cs with
      | [] => [[c]]
      | p :: ps => (c :: p) :: ps

/-- Errors `LoadConfig` can return, one constructor per `errors.New` /
`fmt.Errorf` site in src/config.go, carrying the data interpolated into the
corresponding message. -/
inductive CfgErr where
  | notPointer : CfgErr
  | notStruct : CfgErr
  | openError (e : List Char) : CfgErr
  | quoteInKey (line : List Char) : CfgErr
  | noEquals (line : List Char) : CfgErr
  | emptyKey (line : List Char) : CfgErr
  | emptyValue (key : List Char) : CfgErr
  | invalidKey (key : List Char) : CfgErr
  | invalidBool (value key : List Char) : CfgErr
  | invalidInt (value key : List Char) : CfgErr
  | invalidUint (value key : List Char) : CfgErr
  | invalidFloat (value key : List Char) : CfgErr
  | unsupportedType (kind : List Char) : CfgErr
  deriving DecidableEq, Repr

/-- Result of classifying and splitting a single raw line: either the line is
skipped (blank or comment-only, `key == ""` after the loop) or it yields a
trimmed key together with the normalized value text. -/
inductive LineResult where
  | skip : LineResult
  | kv (key value : List Char) : LineResult
  deriving DecidableEq, Repr

/-- Value text contributed by the parts of the line after the first one, in
the per-line loop of `LoadConfig` (src/config.go lines 79-120): even-indexed
parts are outside quotes, so comments are stripped there and the last part is
right-trimmed; odd-indexed parts are inside quotes and kept verbatim. -/
def valueLoop (even : Bool) : List (List Char) → List Char
  | [] => []
  | part :: rest =>
    if even then
      let pc := dropComment part
      let p := if rest.isEmpty || pc.2 then trimRightGo pc.1 else pc.1
      if pc.2 then p else p ++ valueLoop (!even) rest
    else part ++ valueLoop (!even) rest

/-- The per-line parsing loop of `LoadConfig` (src/config.go lines 74-120):
split the line on `"`, strip comments from the first (unquoted) part, split it
on the first `=` into key and the start of the value, and accumulate the value
from the remaining parts via `valueLoop`. -/
def parseLine (line : List Char) : Except CfgErr LineResult :=
  match splitQuotes line with
  | [] => .ok .skip
  | part0 :: rest =>
    let pc := dropComment part0
    match splitEq pc.1 with
    | none =>
      let key := trimSpaceGo pc.1
      if rest ≠ [] ∧ pc.2 = false then .error (.quoteInKey line)
      else if key ≠ [] then .error (.noEquals line)
      else .ok .skip
    | some kv =>
      let key := trimSpaceGo kv.1
      if key = [] then .error (.emptyKey line)
      else
        let p := trimLeftGo kv.2
        let p := if rest.isEmpty || pc.2 then trimRightGo p else p
        let value := if pc.2 then p else p ++ valueLoop false rest
        .ok (.kv key value)

/-- Decidable equality for `Except`, so that concrete runs of the fallible
operations can be checked by `decide`. -/
instance decEqExcept {ε α : Type} [DecidableEq ε] [DecidableEq α] :
    DecidableEq (Except ε α) := fun a b =>
  match a, b with
  | .error e, .error f =>
    if h : e = f then isTrue (by rw [h]) else isFalse (fun hh => h (Except.error.inj hh))
  | .ok x, .ok y =>
    if h : x = y then isTrue (by rw [h]) else isFalse (fun hh => h (Except.ok.inj hh))
  | .error _, .ok _ => isFalse (fun hh => Except.noConfusion hh)
  | .ok _, .error _ => isFalse (fun hh => Except.noConfusion hh)

/-- Numeric value of a list of decimal digit characters. -/
def natOfDigits (s : List Char) : Nat :=
  s.foldl (fun acc c => acc * 10 + (c.toNat - ('0').toNat)) 0

/-- Decimal digit run parser used by the `strconv` models: `some` of the value
when the list is nonempty and all characters are digits, else `none`. -/
def digitsVal? (s : List Char) : Option Nat :=
  if s ≠ [] ∧ s.all Char.isDigit then some (natOfDigits s) else none

/-- Go `strconv.ParseBool`: exactly the twelve accepted tokens. -/
def parseBoolGo (s : List Char) : Option Bool :=
  if s = ("1").data ∨ s = ("t").data ∨ s = ("T").data ∨
     s = ("TRUE").data ∨ s = ("true").data ∨ s = ("True").data then some true
  else if s = ("0").data ∨ s = ("f").data ∨ s = ("F").data ∨
     s = ("FALSE").data ∨ s = ("false").data ∨ s = ("False").data then some false
  else none

/-- Go `strconv.ParseInt(s, 10, bits)`: optional sign, then a nonempty run of
decimal digits, with the signed value required to fit in `bits` bits. -/
def parseIntGo (s : List Char) (bits : Nat) : Option Int :=
  match s with
  | [] => none
  | c :: cs =>
    let sd : Bool × List Char :=
      if c = '-' then (true, cs) else if c = '+' then (false, cs) else (false, c :: cs)
    match digitsVal? sd.2 with
    | none => none
    | some m =>
      let v : Int := if sd.1 then -(m : Int) else (m : Int)
      if -((2 : Int) ^ (bits - 1)) ≤ v ∧ v < (2 : Int) ^ (bits - 1) then some v else none

/-- Go `strconv.ParseUint(s, 10, bits)`: a nonempty run of decimal digits (no
sign is accepted), with the value required to fit in `bits` bits. -/
def parseUintGo (s : List Char) (bits : Nat) : Option Nat :=
  match digitsVal? s with
  | none => none
  | some m => if m < 2 ^ bits then some m else none

/-- Value of a Go floating-point field: an exact rational for finite values,
or one of the IEEE special values `±Inf` and `NaN`. -/
inductive FloatV where
  | finite (q : ℚ) : FloatV
  | inf (neg : Bool) : FloatV
  | nan : FloatV
  deriving DecidableEq, Repr

/-- Special-value recognition of Go `strconv.ParseFloat`: case-insensitive
`inf` / `infinity` with optional sign, and unsigned `nan`. -/
def floatSpecial (s : List Char) : Option FloatV :=
  let lower := s.map Char.toLower
  if lower = ("nan").data then some .nan
  else
    let sd : Bool × List Char :=
      match lower with
      | '-' :: r => (true, r)
      | '+' :: r => (false, r)
      | r => (false, r)
    if sd.2 = ("inf").data ∨ sd.2 = ("infinity").data then some (.inf sd.1) else none

/-- Unsigned decimal mantissa with optional fraction and exponent, as accepted
by Go `strconv.ParseFloat` for decimal input: `digits [. digits] [(e|E)
[sign] digits]` with at least one mantissa digit. Returns the exact rational. -/
def parseFloatNum (s : List Char) : Option ℚ :=
  let ipr := s.span Char.isDigit
  let fpr : List Char × List Char :=
    match ipr.2 with
    | '.' :: t => t.span Char.isDigit
    | _ => ([], ipr.2)
  if ipr.1 = [] ∧ fpr.1 = [] then none
  else
    let m : ℚ := (natOfDigits (ipr.1 ++ fpr.1) : ℚ)
    let base : ℚ := m / (10 : ℚ) ^ fpr.1.length
    match fpr.2 with
    | [] => some base
    | e :: t =>
      if e = 'e' ∨ e = 'E' then
        let sd : Bool × List Char :=
          match t with
          | '-' :: u => (true, u)
          | '+' :: u => (false, u)
          | u => (false, u)
        match digitsVal? sd.2 with
        | none => none
        | some ev => some (if sd.1 then base / (10 : ℚ) ^ ev else base * (10 : ℚ) ^ ev)
      else none

/-- Largest finite value representable in an IEEE binary float of the given
width, as an exact rational. -/
def maxFiniteQ (bits : Nat) : ℚ :=
  if bits = 32 then ((2 : ℚ) ^ 24 - 1) * (2 : ℚ) ^ 104
  else ((2 : ℚ) ^ 53 - 1) * (2 : ℚ) ^ 971

/-- Go `strconv.ParseFloat(s, bits)` on the decimal forms: special values,
or signed decimal number, rejected (range error) when its magnitude exceeds
the largest finite value of the width. Hexadecimal floats, digit-group
underscores, and rounding at the overflow boundary are outside the inputs
this development exercises and are not modelled. -/
def parseFloatGo (s : List Char) (bits : Nat) : Option FloatV :=
  match floatSpecial s with
  | some v => some v
  | none =>
    let sd : Bool × List Char :=
      match s with
      | '-' :: r => (true, r)
      | '+' :: r => (false, r)
      | r => (false, r)
    match parseFloatNum sd.2 with
    | none => none
    | some q0 =>
      let q : ℚ := if sd.1 then -q0 else q0
      if maxFiniteQ bits < |q| then none else some (.finite q)

/-- Reflection type of a destination field, as seen through
`reflect.Type.Kind()` plus the bit width `reflect.Type.Bits()` where the Go
code consults it. `tOther` stands for any kind outside `parseField`'s switch
(map, struct, pointer, nested slice, ...), carrying its kind name. -/
inductive GoType where
  | tStr : GoType
  | tBool : GoType
  | tInt (bits : Nat) : GoType
  | tUint (bits : Nat) : GoType
  | tFloat (bits : Nat) : GoType
  | tSlice (elem : GoType) : GoType
  | tOther (kind : List Char) : GoType
  deriving DecidableEq, Repr

/-- Name printed for a kind by `fmt.Errorf("unsupported type: %s", Kind())`. -/
def kindName : GoType → List Char
  | .tStr => ("string").data
  | .tBool => ("bool").data
  | .tInt _ => ("int").data
  | .tUint _ => ("uint").data
  | .tFloat _ => ("float").data
  | .tSlice _ => ("slice").data
  | .tOther k => k

/-- A typed scalar value held in (or parsed for) a destination field. -/
inductive ScalarVal where
  | vStr (s : List Char) : ScalarVal
  | vBool (b : Bool) : ScalarVal
  | vInt (bits : Nat) (n : Int) : ScalarVal
  | vUint (bits : Nat) (n : Nat) : ScalarVal
  | vFloat (bits : Nat) (v : FloatV) : ScalarVal
  deriving DecidableEq, Repr

/-- Go `parseField(key, value, fieldType)` (src/config.go lines 20-51):
convert the normalized value text to the field type, or fail with the error of
the corresponding `case`; every kind outside the switch hits the `default`
branch and fails as unsupported. -/
def parseField (key value : List Char) (fieldType : GoType) : Except CfgErr ScalarVal :=
  match fieldType with
  | .tStr => .ok (.vStr value)
  | .tBool =>
    match parseBoolGo value with
    | some b => .ok (.vBool b)
    | none => .error (.invalidBool value key)
  | .tInt bits =>
    match parseIntGo value bits with
    | some n => .ok (.vInt bits n)
    | none => .error (.invalidInt value key)
  | .tUint bits =>
    match parseUintGo value bits with
    | some n => .ok (.vUint bits n)
    | none => .error (.invalidUint value key)
  | .tFloat bits =>
    match parseFloatGo value bits with
    | some v => .ok (.vFloat bits v)
    | none => .error (.invalidFloat value key)
  | t => .error (.unsupportedType (kindName t))

/-- Current content of a destination field. A slice field distinguishes the
nil slice (`none`, Go zero value) from an allocated one (`some elements`);
`otherVal` is the opaque content of a field of an unsupported kind. -/
inductive FieldContent where
  | scalar (v : ScalarVal) : FieldContent
  | slice (elem : GoType) (v : Option (List ScalarVal)) : FieldContent
  | otherVal (kind : List Char) : FieldContent
  deriving DecidableEq, Repr

/-- Reflection type of a field, recovered from its content. -/
def contentType : FieldContent → GoType
  | .scalar (.vStr _) => .tStr
  | .scalar (.vBool _) => .tBool
  | .scalar (.vInt bits _) => .tInt bits
  | .scalar (.vUint bits _) => .tUint bits
  | .scalar (.vFloat bits _) => .tFloat bits
  | .slice elem _ => .tSlice elem
  | .otherVal kind => .tOther kind

/-- One field of the destination struct: its name, whether it is exported
(reflect `CanSet`; `Set` on an unexported field panics), and its content. -/
structure FieldD where
  name : List Char
  exported : Bool
  content : FieldContent
  deriving DecidableEq, Repr

/-- Go `configReflect.FieldByName(key)`: the first field with the given name
(Go struct field names are unique), or `none` when the key names no field. -/
def findField : List FieldD → List Char → Option FieldD
  | [], _ => none
  | fd :: rest, k => if fd.name = k then some fd else findField rest k

/-- Go `field.Set(...)` through the reflection view: replace the content of
the named field, leaving every other field unchanged. -/
def setFieldVal : List FieldD → List Char → FieldContent → List FieldD
  | [], _, _ => []
  | fd :: rest, k, c =>
    (if fd.name = k then { fd with content := c } else fd) :: setFieldVal rest k c

/-- Result of processing one line against the destination struct. -/
inductive StepRes where
  | next (s : List FieldD) : StepRes
  | failed (e : CfgErr) (s : List FieldD) : StepRes
  | panicked (s : List FieldD) : StepRes
  deriving DecidableEq, Repr

/-- The body of the scan loop of `LoadConfig` for one line (src/config.go
lines 74-158): parse the line; skip comment-only lines; reject an empty
normalized value; look the key up in the struct; then either append to a
slice field (allocating an empty slice first when it is nil) or convert and
assign a scalar. `reflect.Value.Set` on an unexported field panics, which for
a nil slice field happens already at the `MakeSlice` assignment, before the
value is converted, and otherwise after a successful conversion. -/
def step (s : List FieldD) (line : List Char) : StepRes :=
  match parseLine line with
  | .error e => .failed e s
  | .ok .skip => .next s
  | .ok (.kv key value) =>
    if value = [] then .failed (.emptyValue key) s
    else
      match findField s key with
      | none => .failed (.invalidKey key) s
      | some fd =>
        match fd.content with
        | .slice elemT none =>
          if fd.exported then
            let s1 := setFieldVal s key (.slice elemT (some []))
            match parseField key value elemT with
            | .error e => .failed e s1
            | .ok pv => .next (setFieldVal s1 key (.slice elemT (some [pv])))
          else .panicked s
        | .slice elemT (some xs) =>
          match parseField key value elemT with
          | .error e => .failed e s
          | .ok pv =>
            if fd.exported then .next (setFieldVal s key (.slice elemT (some (xs ++ [pv]))))
            else .panicked s
        | _ =>
          match parseField key value (contentType fd.content) with
          | .error e => .failed e s
          | .ok pv =>
            if fd.exported then .next (setFieldVal s key (.scalar pv))
            else .panicked s

/-- Overall outcome of a `LoadConfig` call. -/
inductive LoadOutcome where
  | ok : LoadOutcome
  | err (e : CfgErr) : LoadOutcome
  | panicked : LoadOutcome
  deriving DecidableEq, Repr

/-- The scan loop of `LoadConfig`: process the lines in order, stopping at the
first error or panic; already-applied mutations are kept (fail fast, no
rollback). -/
def loadLines : List FieldD → List (List Char) → LoadOutcome × List FieldD
  | s, [] => (.ok, s)
  | s, line :: rest =>
    match step s line with
    | .next s1 => loadLines s1 rest
    | .failed e s1 => (.err e, s1)
    | .panicked s1 => (.panicked, s1)

/-- The destination argument of `LoadConfig`, as classified by the two
reflection checks at its top: a non-pointer, a pointer to a non-struct, or a
pointer to a struct with the given fields. -/
inductive GoArg where
  | nonPtr : GoArg
  | ptrToNonStruct : GoArg
  | ptrToStruct (s : List FieldD) : GoArg
  deriving DecidableEq, Repr

/-- Go `LoadConfig(filename, config)` (src/config.go lines 56-162). The file
system is modelled by the `file` argument: the result of `os.Open` plus the
line iteration of `bufio.Scanner`, i.e. either an open error or the raw lines
in order. The destination checks run before the file is consulted, exactly as
in the source. -/
def LoadConfig (config : GoArg) (file : Except (List Char) (List (List Char))) :
    LoadOutcome × GoArg :=
  match config with
  | .nonPtr => (.err .notPointer, .nonPtr)
  | .ptrToNonStruct => (.err .notStruct, .ptrToNonStruct)
  | .ptrToStruct s =>
    match file with
    | .error e => (.err (.openError e), .ptrToStruct s)
    | .ok lines =>
      ((loadLines s lines).1, .ptrToStruct (loadLines s lines).2)

/-- Values contributed to the list field named `k` by one line: the parsed
element when the line is a key/value line for `k` whose value converts to the
element type, nothing otherwise. -/
def sliceVals1 (k : List Char) (elemT : GoType) (line : List Char) : List ScalarVal :=
  match parseLine line with
  | .ok (.kv key value) =>
    if key = k then
      match parseField key value elemT with
      | .ok v => [v]
      | .error _ => []
    else []
  | _ => []

/-- Values contributed to the list field named `k` by a sequence of lines, in
file order. -/
def sliceVals (k : List Char) (elemT : GoType) : List (List Char) → List ScalarVal
  | [] => []
  | line :: rest => sliceVals1 k elemT line ++ sliceVals k elemT rest

theorem findField_name (s : List FieldD) (k : List Char) (fd : FieldD)
    (h : findField s k = some fd) : fd.name = k := by
  induction s with
  | nil => simp [findField] at h
  | cons a rest ih =>
    unfold findField at h
    by_cases ha : a.name = k
    · rw [if_pos ha] at h
      cases h
      exact ha
    · rw [if_neg ha] at h
      exact ih h

theorem findField_setFieldVal_ne (s : List FieldD) (k k' : List Char) (c : FieldContent)
    (hne : k' ≠ k) : findField (setFieldVal s k' c) k = findField s k := by
  induction s with
  | nil => rfl
  | cons a rest ih =>
    simp only [setFieldVal, findField]
    by_cases ha : a.name = k'
    · simp [ha, hne, ih]
    · simp [ha, ih]

theorem findField_setFieldVal_eq (s : List FieldD) (k : List Char) (c : FieldContent)
    (fd : FieldD) (h : findField s k = some fd) :
    findField (setFieldVal s k c) k = some { fd with content := c } := by
  induction s with
  | nil => simp [findField] at h
  | cons a rest ih =>
    simp only [setFieldVal, findField] at h ⊢
    by_cases ha : a.name = k
    · rw [if_pos ha] at h
      cases h
      simp [ha]
    · rw [if_neg ha] at h
      simp [ha, ih h]

theorem step_next_slice (s s1 : List FieldD) (line k : List Char) (elemT : GoType)
    (ds : List ScalarVal)
    (hf : findField s k = some ⟨k, true, .slice elemT (some ds)⟩)
    (h : step s line = .next s1) :
    findField s1 k = some ⟨k, true, .slice elemT (some (ds ++ sliceVals1 k elemT line))⟩ := by
  unfold step at h
  cases hp : parseLine line with
  | error e0 =>
    rw [hp] at h
    exact StepRes.noConfusion h
  | ok lr =>
    rw [hp] at h
    cases lr with
    | skip =>
      injection h with h1
      rw [← h1]
      simpa [sliceVals1, hp] using hf
    | kv key value =>
      simp only [] at h
      by_cases hv : value = []
      · rw [if_pos hv] at h
        exact StepRes.noConfusion h
      · rw [if_neg hv] at h
        by_cases hk : key = k
        · subst hk
          rw [hf] at h
          simp only [] at h
          cases hpf : parseField key value elemT with
          | error e0 =>
            rw [hpf] at h
            exact StepRes.noConfusion h
          | ok pv =>
            rw [hpf] at h
            simp at h
            rw [← h, findField_setFieldVal_eq s key _ _ hf]
            simp [sliceVals1, hp, hpf]
        · cases hff : findField s key with
          | none =>
            rw [hff] at h
            exact StepRes.noConfusion h
          | some fd =>
            rw [hff] at h
            simp only [] at h
            have hs1 : findField s1 k = findField s k := by
              cases hc : fd.content with
              | slice elemT2 vOpt =>
                rw [hc] at h
                cases vOpt with
                | none =>
                  simp only [] at h
                  by_cases hex : fd.exported = true
                  · rw [if_pos hex] at h
                    cases hpf : parseField key value elemT2 with
                    | error e0 =>
                      rw [hpf] at h
                      exact StepRes.noConfusion h
                    | ok pv =>
                      rw [hpf] at h
                      injection h with h1
                      rw [← h1, findField_setFieldVal_ne _ _ _ _ hk,
                        findField_setFieldVal_ne _ _ _ _ hk]
                  · rw [if_neg hex] at h
                    exact StepRes.noConfusion h
                | some xs =>
                  simp only [] at h
                  cases hpf : parseField key value elemT2 with
                  | error e0 =>
                    rw [hpf] at h
                    exact StepRes.noConfusion h
                  | ok pv =>
                    rw [hpf] at h
                    simp only [] at h
                    by_cases hex : fd.exported = true
                    · rw [if_pos hex] at h
                      injection h with h1
                      rw [← h1, findField_setFieldVal_ne _ _ _ _ hk]
                    · rw [if_neg hex] at h
                      exact StepRes.noConfusion h
              | scalar v =>
                rw [hc] at h
                simp only [] at h
                cases hpf : parseField key value (contentType (FieldContent.scalar v)) with
                | error e0 =>
                  rw [hpf] at h
                  exact StepRes.noConfusion h
                | ok pv =>
                  rw [hpf] at h
                  simp only [] at h
                  by_cases hex : fd.exported = true
                  · rw [if_pos hex] at h
                    injection h with h1
                    rw [← h1, findField_setFieldVal_ne _ _ _ _ hk]
                  · rw [if_neg hex] at h
                    exact StepRes.noConfusion h
              | otherVal kn =>
                rw [hc] at h
                simp only [] at h
                cases hpf : parseField key value (contentType (FieldContent.otherVal kn)) with
                | error e0 =>
                  rw [hpf] at h
                  exact StepRes.noConfusion h
                | ok pv =>
                  rw [hpf] at h
                  simp only [] at h
                  by_cases hex : fd.exported = true
                  · rw [if_pos hex] at h
                    injection h with h1
                    rw [← h1, findField_setFieldVal_ne _ _ _ _ hk]
                  · rw [if_neg hex] at h
                    exact StepRes.noConfusion h
            rw [hs1]
            simpa [sliceVals1, hp, hk] using hf

theorem loadLines_slice (k : List Char) (elemT : GoType) (lines : List (List Char)) :
    ∀ (s s1 : List FieldD) (ds : List ScalarVal),
    findField s k = some ⟨k, true, .slice elemT (some ds)⟩ →
    loadLines s lines = (.ok, s1) →
    findField s1 k = some ⟨k, true, .slice elemT (some (ds ++ sliceVals k elemT lines))⟩ := by
  induction lines with
  | nil =>
    intro s s1 ds hf hl
    simp only [loadLines, Prod.mk.injEq] at hl
    rw [← hl.2]
    simpa [sliceVals] using hf
  | cons line rest ih =>
    intro s s1 ds hf hl
    unfold loadLines at hl
    cases hst : step s line with
    | next s2 =>
      rw [hst] at hl
      have h2 := step_next_slice s s2 line k elemT ds hf hst
      have h3 := ih s2 s1 (ds ++ sliceVals1 k elemT line) h2 hl
      simpa [sliceVals, List.append_assoc] using h3
    | failed e s2 =>
      rw [hst] at hl
      simp at hl
    | panicked s2 =>
      rw [hst] at hl
      simp at hl

/-- C6: for a list field named `k` holding a caller-supplied default sequence
`ds`, a successful `LoadConfig` run leaves the field holding exactly the
defaults followed by the parsed values of the lines for `k`, in file order, so
its length is the default length plus the number of those lines. -/
theorem loadConfig_list_field_appends_to_defaults
    (s s1 : List FieldD) (lines : List (List Char)) (k : List Char)
    (elemT : GoType) (ds : List ScalarVal)
    (hf : findField s k = some ⟨k, true, .slice elemT (some ds)⟩)
    (hl : LoadConfig (.ptrToStruct s) (.ok lines) = (.ok, .ptrToStruct s1)) :
    findField s1 k = some ⟨k, true, .slice elemT (some (ds ++ sliceVals k elemT lines))⟩ ∧
    (ds ++ sliceVals k elemT lines).length =
      ds.length + (sliceVals k elemT lines).length := by
  have hl' : loadLines s lines = (.ok, s1) := by
    simp only [LoadConfig, Prod.mk.injEq, GoArg.ptrToStruct.injEq] at hl
    rw [Prod.ext_iff]
    exact hl
  exact ⟨loadLines_slice k elemT lines s s1 ds hf hl', by simp⟩

/-- Witness for `loadConfig_list_field_appends_to_defaults`: a string list
field with one default element and two appended lines. -/
theorem loadConfig_list_field_appends_to_defaults_witness :
    findField [⟨("Foo").data, true, FieldContent.slice GoType.tStr (some [ScalarVal.vStr (("a").data)])⟩] (("Foo").data) =
      some ⟨("Foo").data, true, FieldContent.slice GoType.tStr (some [ScalarVal.vStr (("a").data)])⟩ ∧
    LoadConfig (.ptrToStruct [⟨("Foo").data, true, FieldContent.slice GoType.tStr (some [ScalarVal.vStr (("a").data)])⟩])
      (.ok [("Foo = b").data, ("Foo = c").data]) =
      (.ok, .ptrToStruct [⟨("Foo").data, true,
        FieldContent.slice GoType.tStr (some [ScalarVal.vStr (("a").data), ScalarVal.vStr (("b").data), ScalarVal.vStr (("c").data)])⟩]) ∧
    (findField [⟨("Foo").data, true,
        FieldContent.slice GoType.tStr (some [ScalarVal.vStr (("a").data), ScalarVal.vStr (("b").data), ScalarVal.vStr (("c").data)])⟩]
        (("Foo").data) =
      some ⟨("Foo").data, true, FieldContent.slice GoType.tStr (some ([ScalarVal.vStr (("a").data)] ++
        sliceVals (("Foo").data) GoType.tStr [("Foo = b").data, ("Foo = c").data]))⟩ ∧
    ([ScalarVal.vStr (("a").data)] ++
        sliceVals (("Foo").data) GoType.tStr [("Foo = b").data, ("Foo = c").data]).length =
      [ScalarVal.vStr (("a").data)].length +
        (sliceVals (("Foo").data) GoType.tStr [("Foo = b").data, ("Foo = c").data]).length) :=
  ⟨by decide, by decide,
    loadConfig_list_field_appends_to_defaults
      [⟨("Foo").data, true, FieldContent.slice GoType.tStr (some [ScalarVal.vStr (("a").data)])⟩]
      [⟨("Foo").data, true,
        FieldContent.slice GoType.tStr (some [ScalarVal.vStr (("a").data), ScalarVal.vStr (("b").data), ScalarVal.vStr (("c").data)])⟩]
      [("Foo = b").data, ("Foo = c").data] (("Foo").data) GoType.tStr [ScalarVal.vStr (("a").data)]
      (by decide) (by decide)⟩

/-- C7: a `#` inside a double-quoted span is literal value text, not a comment
start: loading the single line `Foo = "#something"` into a struct with a
string field `Foo` succeeds and binds exactly the string `#something`. -/
theorem loadConfig_quoted_hash_literal :
    LoadConfig (.ptrToStruct [⟨("Foo").data, true, .scalar (.vStr [])⟩])
      (.ok [("Foo = \"#something\"").data]) =
    (.ok, .ptrToStruct [⟨("Foo").data, true, .scalar (.vStr (("#something").data))⟩]) := by
  decide

/-- C1 (failing evaluation): with a scalar string field `Foo`, the two-line
file `Foo = a`, `Foo = b` loads successfully and the second assignment simply
overwrites the first; no duplicate-key error exists anywhere in src/config.go,
contradicting the claimed `DuplicateKeyError` referencing the first line. -/
theorem loadConfig_duplicate_scalar_key_overwrites :
    LoadConfig (.ptrToStruct [⟨("Foo").data, true, .scalar (.vStr (("x").data))⟩])
      (.ok [("Foo = a").data, ("Foo = b").data]) =
    (.ok, .ptrToStruct [⟨("Foo").data, true, .scalar (.vStr (("b").data))⟩]) := by
  decide

/-- C4 (failing evaluation): the line `Foo = "ba\"r"` binds the string `ba\r`
(the backslash is kept, the quote is dropped by the split on `"`): the parser
has no escape handling, so the claimed result `ba"r` is not produced. -/
theorem loadConfig_escaped_quote_not_unescaped :
    LoadConfig (.ptrToStruct [⟨("Foo").data, true, .scalar (.vStr [])⟩])
      (.ok [("Foo = \"ba\\\"r\"").data]) =
    (.ok, .ptrToStruct [⟨("Foo").data, true, .scalar (.vStr (("ba\\r").data))⟩]) ∧
    ("ba\\r").data ≠ ("ba\"r").data := by
  exact ⟨by decide, by decide⟩

/-- C5 (failing evaluation): a key naming an unexported field passes the
`IsValid` check, so `LoadConfig` reaches `reflect.Value.Set`, which panics on
a value obtained from an unexported field; the call does not return an error. -/
theorem loadConfig_unexported_field_panics :
    LoadConfig (.ptrToStruct [⟨("unexported").data, false, .scalar (.vStr (("foo").data))⟩])
      (.ok [("unexported = bar").data]) =
    (.panicked,
     .ptrToStruct [⟨("unexported").data, false, .scalar (.vStr (("foo").data))⟩]) := by
  decide

/-- C3 (counterexample): the claim says `Key = ""` succeeds and binds the
empty string, but the `value == ""` check in src/config.go runs after quote
removal with no record of quoting, so the explicitly quoted empty value fails
with the empty-value error and the field keeps its prior content. -/
theorem loadConfig_quoted_empty_value_fails :
    LoadConfig (.ptrToStruct [⟨("Key").data, true, .scalar (.vStr (("d").data))⟩])
      (.ok [("Key = \"\"").data]) =
    (.err (.emptyValue (("Key").data)),
     .ptrToStruct [⟨("Key").data, true, .scalar (.vStr (("d").data))⟩]) := by
  decide

/-- C3 (amended): a line whose value normalizes to the empty string always
fails with the empty-value error naming the key, whether or not the emptiness
came from explicit quoting, and the struct is left unchanged by that line. -/
theorem step_empty_value_always_fails (s : List FieldD) (line key : List Char)
    (h : parseLine line = .ok (.kv key [])) :
    step s line = .failed (.emptyValue key) s := by
  unfold step
  rw [h]
  rfl

/-- Witness for `step_empty_value_always_fails` at the quoted-empty line. -/
theorem step_empty_value_always_fails_witness :
    parseLine (("Key = \"\"").data) = .ok (.kv (("Key").data) []) ∧
    step [] (("Key = \"\"").data) = .failed (.emptyValue (("Key").data)) [] :=
  ⟨by decide, step_empty_value_always_fails [] _ _ (by decide)⟩

/-- C2 (counterexample): with a nil slice field `Foo` of element type int64
and the line `Foo = abc`, `LoadConfig` returns the conversion error but the
field does not remain nil: the `MakeSlice` assignment runs before the value is
converted, leaving an allocated empty slice behind. -/
theorem loadConfig_nil_slice_mutated_on_conversion_failure :
    LoadConfig (.ptrToStruct [⟨("Foo").data, true, .slice (.tInt 64) none⟩])
      (.ok [("Foo = abc").data]) =
    (.err (.invalidInt (("abc").data) (("Foo").data)),
     .ptrToStruct [⟨("Foo").data, true, .slice (.tInt 64) (some [])⟩]) ∧
    FieldContent.slice (.tInt 64) (some []) ≠ FieldContent.slice (.tInt 64) none := by
  exact ⟨by decide, by decide⟩

/-- C2 (amended): when processing a line fails — in particular when the value
fails to convert to the field's declared type — the returned struct state is
the prior state, except that a nil list field named by the line has been
initialized to an empty, non-nil sequence (with no element appended) before
the conversion was attempted. -/
theorem step_failure_mutates_at_most_nil_slice_init (s s1 : List FieldD)
    (line : List Char) (e : CfgErr) (h : step s line = .failed e s1) :
    s1 = s ∨ ∃ key elemT,
      (∃ fd, findField s key = some fd ∧ fd.exported = true ∧
        fd.content = .slice elemT none) ∧
      s1 = setFieldVal s key (.slice elemT (some [])) := by
  unfold step at h
  cases hp : parseLine line with
  | error e0 =>
    rw [hp] at h
    injection h with h1 h2
    exact Or.inl h2.symm
  | ok lr =>
    rw [hp] at h
    cases lr with
    | skip => exact StepRes.noConfusion h
    | kv key value =>
      simp only [] at h
      by_cases hv : value = []
      · rw [if_pos hv] at h
        injection h with h1 h2
        exact Or.inl h2.symm
      · rw [if_neg hv] at h
        cases hff : findField s key with
        | none =>
          rw [hff] at h
          injection h with h1 h2
          exact Or.inl h2.symm
        | some fd =>
          rw [hff] at h
          simp only [] at h
          cases hc : fd.content with
          | slice elemT2 vOpt =>
            rw [hc] at h
            cases vOpt with
            | none =>
              simp only [] at h
              by_cases hex : fd.exported = true
              · rw [if_pos hex] at h
                cases hpf : parseField key value elemT2 with
                | error e0 =>
                  rw [hpf] at h
                  injection h with h1 h2
                  exact Or.inr ⟨key, elemT2, ⟨fd, hff, hex, hc⟩, h2.symm⟩
                | ok pv =>
                  rw [hpf] at h
                  exact StepRes.noConfusion h
              · rw [if_neg hex] at h
                exact StepRes.noConfusion h
            | some xs =>
              simp only [] at h
              cases hpf : parseField key value elemT2 with
              | error e0 =>
                rw [hpf] at h
                injection h with h1 h2
                exact Or.inl h2.symm
              | ok pv =>
                rw [hpf] at h
                simp only [] at h
                by_cases hex : fd.exported = true
                · rw [if_pos hex] at h
                  exact StepRes.noConfusion h
                · rw [if_neg hex] at h
                  exact StepRes.noConfusion h
          | scalar v =>
            rw [hc] at h
            simp only [] at h
            cases hpf : parseField key value (contentType (FieldContent.scalar v)) with
            | error e0 =>
              rw [hpf] at h
              injection h with h1 h2
              exact Or.inl h2.symm
            | ok pv =>
              rw [hpf] at h
              simp only [] at h
              by_cases hex : fd.exported = true
              · rw [if_pos hex] at h
                exact StepRes.noConfusion h
              · rw [if_neg hex] at h
                exact StepRes.noConfusion h
          | otherVal kn =>
            rw [hc] at h
            simp only [] at h
            cases hpf : parseField key value (contentType (FieldContent.otherVal kn)) with
            | error e0 =>
              rw [hpf] at h
              injection h with h1 h2
              exact Or.inl h2.symm
            | ok pv =>
              rw [hpf] at h
              simp only [] at h
              by_cases hex : fd.exported = true
              · rw [if_pos hex] at h
                exact StepRes.noConfusion h
              · rw [if_neg hex] at h
                exact StepRes.noConfusion h

/-- Witness for `step_failure_mutates_at_most_nil_slice_init` at a nil int64
list field and a non-numeric value. -/
theorem step_failure_mutates_at_most_nil_slice_init_witness :
    step [⟨("Foo").data, true, .slice (.tInt 64) none⟩] (("Foo = abc").data) =
      .failed (.invalidInt (("abc").data) (("Foo").data))
        [⟨("Foo").data, true, .slice (.tInt 64) (some [])⟩] ∧
    ([(⟨("Foo").data, true, FieldContent.slice (.tInt 64) (some [])⟩ : FieldD)] =
        [(⟨("Foo").data, true, FieldContent.slice (.tInt 64) none⟩ : FieldD)] ∨
      ∃ key elemT,
        (∃ fd, findField [⟨("Foo").data, true, FieldContent.slice (.tInt 64) none⟩] key =
            some fd ∧ fd.exported = true ∧ fd.content = .slice elemT none) ∧
        [⟨("Foo").data, true, FieldContent.slice (.tInt 64) (some [])⟩] =
          setFieldVal [⟨("Foo").data, true, FieldContent.slice (.tInt 64) none⟩] key
            (.slice elemT (some []))) :=
  ⟨by decide,
    step_failure_mutates_at_most_nil_slice_init
      [⟨("Foo").data, true, .slice (.tInt 64) none⟩]
      [⟨("Foo").data, true, .slice (.tInt 64) (some [])⟩]
      (("Foo = abc").data) (.invalidInt (("abc").data) (("Foo").data)) (by decide)⟩

/-- C8: when the destination is not a pointer to a struct, `LoadConfig` fails
with the corresponding type error whatever the file argument is — including
when opening the file would fail — so the check happens before any I/O. -/
theorem loadConfig_non_struct_pointer_fails_before_any_read
    (file : Except (List Char) (List (List Char))) :
    LoadConfig .nonPtr file = (.err .notPointer, .nonPtr) ∧
    LoadConfig .ptrToNonStruct file = (.err .notStruct, .ptrToNonStruct) :=
  ⟨rfl, rfl⟩

/-- C10: when opening the named source fails, `LoadConfig` returns exactly
that open error and the destination struct is returned with every field at
its caller-supplied value. -/
theorem loadConfig_open_error_leaves_config_unchanged (s : List FieldD) (e : List Char) :
    LoadConfig (.ptrToStruct s) (.error e) = (.err (.openError e), .ptrToStruct s) :=
  rfl

theorem mem_splitQuotes_no_quote (l : List Char) :
    ∀ p ∈ splitQuotes l, '"' ∉ p := by
  induction l with
  | nil =>
    intro p hp
    simp [splitQuotes] at hp
    simp [hp]
  | cons c cs ih =>
    intro p hp
    unfold splitQuotes at hp
    by_cases hc : c = '"'
    · rw [if_pos hc] at hp
      rcases List.mem_cons.mp hp with h | h
      · simp [h]
      · exact ih p h
    · rw [if_neg hc] at hp
      cases hsq : splitQuotes cs with
      | nil =>
        rw [hsq] at hp
        simp at hp
        intro hmem
        rw [hp] at hmem
        simp at hmem
        exact hc hmem.symm
      | cons p0 ps =>
        rw [hsq] at hp
        rcases List.mem_cons.mp hp with h | h
        · subst h
          intro hmem
          rcases List.mem_cons.mp hmem with h2 | h2
          · exact hc h2.symm
          · exact ih p0 (by rw [hsq]; exact List.mem_cons_self p0 ps) h2
        · exact ih p (by rw [hsq]; exact List.mem_cons_of_mem p0 h)

theorem mem_dropComment_fst (p : List Char) (x : Char) (hx : x ∈ (dropComment p).1) :
    x ∈ p := by
  induction p with
  | nil => simp [dropComment] at hx
  | cons c cs ih =>
    unfold dropComment at hx
    by_cases hc : c = '#'
    · rw [if_pos hc] at hx
      simp at hx
    · rw [if_neg hc] at hx
      simp only [] at hx
      rcases List.mem_cons.mp hx with h | h
      · exact h ▸ List.mem_cons_self c cs
      · exact List.mem_cons_of_mem c (ih h)

theorem mem_splitEq_snd (p : List Char) : ∀ (r : List Char × List Char),
    splitEq p = some r → ∀ x ∈ r.2, x ∈ p := by
  induction p with
  | nil => intro r h; exact Option.noConfusion h
  | cons c cs ih =>
    intro r h x hx
    unfold splitEq at h
    by_cases hc : c = '='
    · rw [if_pos hc] at h
      cases h
      exact List.mem_cons_of_mem c hx
    · rw [if_neg hc] at h
      cases hse : splitEq cs with
      | none =>
        rw [hse] at h
        exact Option.noConfusion h
      | some r0 =>
        rw [hse] at h
        cases h
        exact List.mem_cons_of_mem c (ih r0 hse x hx)

theorem mem_trimLeftGo (s : List Char) (x : Char) (hx : x ∈ trimLeftGo s) : x ∈ s :=
  (List.dropWhile_sublist isSpaceGo).subset hx

theorem mem_trimRightGo (s : List Char) (x : Char) (hx : x ∈ trimRightGo s) : x ∈ s := by
  unfold trimRightGo at hx
  rw [List.mem_reverse] at hx
  exact List.mem_reverse.mp ((List.dropWhile_sublist isSpaceGo).subset hx)

theorem valueLoop_no_quote : ∀ (parts : List (List Char)),
    (∀ p ∈ parts, '"' ∉ p) → ∀ (even : Bool), '"' ∉ valueLoop even parts := by
  intro parts
  induction parts with
  | nil =>
    intro hp even
    simp [valueLoop]
  | cons part rest ih =>
    intro hp even
    have hpart : '"' ∉ part := hp part (List.mem_cons_self part rest)
    have hrest : ∀ p ∈ rest, '"' ∉ p := fun p h => hp p (List.mem_cons_of_mem part h)
    have h1 : '"' ∉ (dropComment part).1 := fun hm => hpart (mem_dropComment_fst part _ hm)
    have h2 : '"' ∉ trimRightGo (dropComment part).1 := fun hm => h1 (mem_trimRightGo _ _ hm)
    have h3 : '"' ∉ (if (rest.isEmpty || (dropComment part).2 : Bool) then
        trimRightGo (dropComment part).1 else (dropComment part).1) := by
      by_cases hb : (rest.isEmpty || (dropComment part).2) = true
      · rw [if_pos hb]; exact h2
      · rw [if_neg hb]; exact h1
    cases even with
    | false =>
      intro hmem
      simp only [valueLoop] at hmem
      rw [if_neg (by simp)] at hmem
      rcases List.mem_append.mp hmem with h | h
      · exact hpart h
      · exact ih hrest true h
    | true =>
      intro hmem
      simp only [valueLoop] at hmem
      rw [if_pos trivial] at hmem
      by_cases hc2 : (dropComment part).2 = true
      · rw [if_pos hc2] at hmem
        exact h3 hmem
      · rw [if_neg hc2] at hmem
        rcases List.mem_append.mp hmem with h | h
        · exact h3 h
        · exact ih hrest false h

/-- C9: every value produced by the line parser — and hence every string ever
assigned or appended to a destination field — is free of the double-quote
character: the split on `"` removes every quote and nothing reintroduces one. -/
theorem parseLine_value_no_quote (line k v : List Char)
    (h : parseLine line = .ok (.kv k v)) : '"' ∉ v := by
  unfold parseLine at h
  cases hsq : splitQuotes line with
  | nil =>
    rw [hsq] at h
    injection h with h1
    exact LineResult.noConfusion h1
  | cons part0 rest =>
    rw [hsq] at h
    simp only [] at h
    cases hse : splitEq (dropComment part0).1 with
    | none =>
      rw [hse] at h
      by_cases h1 : rest ≠ [] ∧ (dropComment part0).2 = false
      · rw [if_pos h1] at h
        exact Except.noConfusion h
      · rw [if_neg h1] at h
        by_cases h2 : trimSpaceGo (dropComment part0).1 ≠ []
        · rw [if_pos h2] at h
          exact Except.noConfusion h
        · rw [if_neg h2] at h
          injection h with h3
          exact LineResult.noConfusion h3
    | some kvp =>
      rw [hse] at h
      simp only [] at h
      by_cases hk : trimSpaceGo kvp.1 = []
      · rw [if_pos hk] at h
        exact Except.noConfusion h
      · rw [if_neg hk] at h
        injection h with h1
        injection h1 with hk1 hv1
        rw [← hv1]
        have hpart0 : '"' ∉ part0 :=
          mem_splitQuotes_no_quote line part0 (by rw [hsq]; exact List.mem_cons_self part0 rest)
        have hrest : ∀ p ∈ rest, '"' ∉ p := fun p hp2 =>
          mem_splitQuotes_no_quote line p (by rw [hsq]; exact List.mem_cons_of_mem part0 hp2)
        have hkv2 : '"' ∉ kvp.2 := fun hm =>
          hpart0 (mem_dropComment_fst part0 _ (mem_splitEq_snd _ kvp hse _ hm))
        have hTL : '"' ∉ trimLeftGo kvp.2 := fun hm => hkv2 (mem_trimLeftGo _ _ hm)
        have hTR : '"' ∉ (if (rest.isEmpty || (dropComment part0).2 : Bool) then
            trimRightGo (trimLeftGo kvp.2) else trimLeftGo kvp.2) := by
          by_cases hb : (rest.isEmpty || (dropComment part0).2) = true
          · rw [if_pos hb]
            exact fun hm => hTL (mem_trimRightGo _ _ hm)
          · rw [if_neg hb]
            exact hTL
        by_cases hc2 : (dropComment part0).2 = true
        · rw [if_pos hc2]
          exact hTR
        · rw [if_neg hc2]
          intro hm
          rcases List.mem_append.mp hm with hmm | hmm
          · exact hTR hmm
          · exact valueLoop_no_quote rest hrest false hmm

/-- Witness for `parseLine_value_no_quote` at a line with a quoted span. -/
theorem parseLine_value_no_quote_witness :
    parseLine (("Foo = \"bar\"").data) = .ok (.kv (("Foo").data) (("bar").data)) ∧
    '"' ∉ (("bar").data) :=
  ⟨by decide, parseLine_value_no_quote (("Foo = \"bar\"").data) (("Foo").data)
    (("bar").data) (by decide)⟩

end ItkConfig
